import Mathlib

/-!
Shallow embedding of the core of `calendar.rs` (modules `advanced_iterator.rs`
and `date.rs`).

Rust iterators are embedded as explicit state types together with a pure
`next` function `σ → Option (α × σ)` (returning the produced element and the
mutated state).  The finite sequence an iterator produces is obtained by
unfolding `next` with an explicit fuel argument (`iterN`); every iterator in
this codebase comes with an exact natural measure that bounds the number of
elements it can still produce, and the canonical list uses that measure as
fuel.  `iterN_congr` shows the fuel choice is irrelevant once it is at least
the measure, so the canonical list really is "run the iterator to exhaustion".
-/

set_option autoImplicit false

namespace Calendar

universe u v

variable {α : Type u} {β : Type v} {σ : Type v}

/-- Unfold a pure iterator step function `next` for at most `fuel` steps,
collecting the produced elements.  Unfolding stops early when `next`
returns `none`. -/
def iterN {σ : Type u} {α : Type v} (next : σ → Option (α × σ)) : Nat → σ → List α
  | 0, _ => []
  | n + 1, s =>
    match next s with
    | none => []
    | some (a, s') => a :: iterN next n s'

theorem iterN_zero {σ : Type u} {α : Type v} (next : σ → Option (α × σ)) (s : σ) :
    iterN next 0 s = [] := rfl

theorem iterN_succ {σ : Type u} {α : Type v} (next : σ → Option (α × σ)) (n : Nat) (s : σ) :
    iterN next (n + 1) s =
      match next s with
      | none => []
      | some (a, s') => a :: iterN next n s' := rfl

theorem iterN_of_none {σ : Type u} {α : Type v} {next : σ → Option (α × σ)} (n : Nat) {s : σ}
    (h : next s = none) : iterN next (n + 1) s = [] := by
  simp [iterN_succ, h]

theorem iterN_of_some {σ : Type u} {α : Type v} {next : σ → Option (α × σ)} (n : Nat) {s : σ}
    {a : α} {s' : σ} (h : next s = some (a, s')) :
    iterN next (n + 1) s = a :: iterN next n s' := by
  simp [iterN_succ, h]

/-- If every productive step of `next` strictly decreases a natural measure
`m`, then unfolding with any fuel at least `m s` gives the same list:
the iterator is exhausted within `m s` steps. -/
theorem iterN_congr {σ : Type u} {α : Type v} (next : σ → Option (α × σ)) (m : σ → Nat)
    (hdec : ∀ s a s', next s = some (a, s') → m s' < m s) :
    ∀ (n n' : Nat) (s : σ), m s ≤ n → m s ≤ n' → iterN next n s = iterN next n' s := by
  intro n
  induction n with
  | zero =>
    intro n' s hn hn'
    -- `m s = 0`, hence `next s = none` and both unfoldings are empty.
    have hms : m s = 0 := Nat.le_zero.mp hn
    have hnone : next s = none := by
      cases h : next s with
      | none => rfl
      | some p =>
        have := hdec s p.1 p.2 (by rw [h])
        omega
    cases n' with
    | zero => rfl
    | succ k => rw [iterN_zero, iterN_of_none k hnone]
  | succ n ih =>
    intro n' s hn hn'
    cases h : next s with
    | none =>
      cases n' with
      | zero => rw [iterN_zero, iterN_of_none n h]
      | succ k => rw [iterN_of_none n h, iterN_of_none k h]
    | some p =>
      obtain ⟨a, s'⟩ := p
      have hlt : m s' < m s := hdec s a s' h
      cases n' with
      | zero => omega
      | succ k =>
        rw [iterN_of_some n h, iterN_of_some k h, ih k s' (by omega) (by omega)]

/-! ## Chunk (`advanced_iterator.rs`, `Chunk::next`)

The Rust iterator state is the inner iterator plus the chunk size; for a
list-backed inner iterator the state is the remaining list.  `Chunk::next`
drains `take(size)` eagerly into a buffer and yields it unless it is empty. -/

/-- One step of `Chunk::next`: drain up to `size` elements from the inner
iterator; if nothing was drained the chunk iterator is exhausted, otherwise
yield the drained buffer and the advanced inner iterator. -/
def chunkNext (size : Nat) (inner : List α) : Option (List α × List α) :=
  let result := inner.take size
  if result.isEmpty then none
  else some (result, inner.drop size)

/-- All chunks produced by `chunk(size)` on a list-backed inner iterator.
`inner.length` is an exact fuel bound: each produced chunk is non-empty. -/
def chunkList (size : Nat) (inner : List α) : List (List α) :=
  iterN (chunkNext size) inner.length inner

theorem chunkNext_nil (size : Nat) : chunkNext size ([] : List α) = none := by
  simp [chunkNext]

theorem chunkNext_zero (inner : List α) : chunkNext 0 inner = none := by
  simp [chunkNext]

theorem chunkNext_pos {size : Nat} (hs : 0 < size) {inner : List α} (hne : inner ≠ []) :
    chunkNext size inner = some (inner.take size, inner.drop size) := by
  cases inner with
  | nil => exact absurd rfl hne
  | cons x xs =>
    cases size with
    | zero => omega
    | succ k => simp [chunkNext]

theorem chunkNext_decreases (size : Nat) :
    ∀ (s : List α) (a : List α) (s' : List α),
      chunkNext size s = some (a, s') → s'.length < s.length := by
  intro s a s' h
  cases s with
  | nil => simp [chunkNext] at h
  | cons x xs =>
    cases size with
    | zero => simp [chunkNext] at h
    | succ k =>
      simp [chunkNext] at h
      obtain ⟨_, h2⟩ := h
      subst h2
      simp [Nat.lt_succ_iff]

theorem chunkList_nil (size : Nat) : chunkList size ([] : List α) = [] := rfl

/-- Unfolding equation for `chunkList` on a non-empty inner list with a
positive chunk size. -/
theorem chunkList_cons {size : Nat} (hs : 0 < size) {inner : List α} (hne : inner ≠ []) :
    chunkList size inner = inner.take size :: chunkList size (inner.drop size) := by
  unfold chunkList
  cases h : inner.length with
  | zero =>
    cases inner with
    | nil => exact absurd rfl hne
    | cons x xs => simp at h
  | succ n =>
    rw [iterN_of_some n (chunkNext_pos hs hne)]
    have hd : (inner.drop size).length ≤ n := by
      have := List.length_drop size inner
      omega
    rw [iterN_congr (chunkNext size) List.length (chunkNext_decreases size)
      n (inner.drop size).length (inner.drop size) hd (Nat.le_refl _)]

theorem chunkList_join_aux {size : Nat} (hs : 0 < size) :
    ∀ (n : Nat) (inner : List α), inner.length ≤ n → (chunkList size inner).flatten = inner := by
  intro n
  induction n with
  | zero =>
    intro inner h
    have : inner = [] := List.eq_nil_of_length_eq_zero (Nat.le_zero.mp h)
    subst this
    rfl
  | succ n ih =>
    intro inner h
    cases inner with
    | nil => rfl
    | cons x xs =>
      rw [chunkList_cons hs (by simp), List.flatten_cons,
        ih ((x :: xs).drop size) (by rw [List.length_drop]; simp only [List.length_cons] at h ⊢; omega)]
      exact List.take_append_drop size (x :: xs)

theorem chunkList_join {size : Nat} (hs : 0 < size) (inner : List α) :
    (chunkList size inner).flatten = inner :=
  chunkList_join_aux hs inner.length inner (Nat.le_refl _)

theorem chunkList_length_aux {size : Nat} (hs : 0 < size) :
    ∀ (n : Nat) (inner : List α), inner.length ≤ n →
      (chunkList size inner).length = (inner.length + size - 1) / size := by
  intro n
  induction n with
  | zero =>
    intro inner h
    have : inner = [] := List.eq_nil_of_length_eq_zero (Nat.le_zero.mp h)
    subst this
    simp [chunkList_nil, Nat.div_eq_of_lt (by omega : size - 1 < size)]
  | succ n ih =>
    intro inner h
    cases inner with
    | nil => simp [chunkList_nil, Nat.div_eq_of_lt (by omega : size - 1 < size)]
    | cons x xs =>
      rw [chunkList_cons hs (by simp), List.length_cons,
        ih ((x :: xs).drop size) (by rw [List.length_drop]; simp only [List.length_cons] at h ⊢; omega)]
      set L := (x :: xs).length with hL
      have hL1 : 1 ≤ L := by simp [hL]
      rw [List.length_drop]
      have hrhs : (L + size - 1) / size = (L - 1) / size + 1 := by
        have : L + size - 1 = (L - 1) + size := by omega
        rw [this, Nat.add_div_right _ hs]
      rw [hrhs]
      rcases le_or_lt size L with hle | hlt
      · have : L - size + size - 1 = L - 1 := by omega
        rw [this]
      · have h1 : L - size + size - 1 = size - 1 := by omega
        rw [h1, Nat.div_eq_of_lt (by omega : size - 1 < size),
          Nat.div_eq_of_lt (by omega : L - 1 < size)]

theorem chunkList_length {size : Nat} (hs : 0 < size) (inner : List α) :
    (chunkList size inner).length = (inner.length + size - 1) / size :=
  chunkList_length_aux hs inner.length inner (Nat.le_refl _)

/-- C1: for every finite input list and every chunk size `S > 0`, flattening
the chunks produced by `chunk(S)` reproduces the input exactly, and the
number of chunks is `ceil(L/S)` (written `(L + S - 1) / S`), in particular
`0` chunks when the input is empty. -/
theorem chunk_flatten_and_count (inner : List α) (size : Nat) (hs : 0 < size) :
    (chunkList size inner).flatten = inner ∧
    (chunkList size inner).length = (inner.length + size - 1) / size ∧
    (inner.length = 0 → (chunkList size inner).length = 0) := by
  refine ⟨chunkList_join hs inner, chunkList_length hs inner, ?_⟩
  intro h0
  rw [chunkList_length hs inner, h0]
  exact Nat.div_eq_of_lt (by omega)

theorem chunk_flatten_and_count_witness :
    0 < 2 ∧
    ((chunkList 2 [0, 1, 2, 3, 4]).flatten = [0, 1, 2, 3, 4] ∧
     (chunkList 2 [0, 1, 2, 3, 4]).length = ([0, 1, 2, 3, 4].length + 2 - 1) / 2 ∧
     ([0, 1, 2, 3, 4].length = 0 → (chunkList 2 [0, 1, 2, 3, 4]).length = 0)) :=
  ⟨by decide, chunk_flatten_and_count [0, 1, 2, 3, 4] 2 (by decide)⟩

/-- C9: `chunk(0)` terminates immediately with the empty sequence of chunks:
the very first `next()` drains `take(0)` (the empty buffer) and returns
`None`; it neither loops forever nor panics. -/
theorem chunk_zero_is_empty_sequence (inner : List α) :
    chunkNext 0 inner = none ∧ chunkList 0 inner = [] := by
  refine ⟨chunkNext_zero inner, ?_⟩
  unfold chunkList
  cases h : inner.length with
  | zero => rfl
  | succ n => exact iterN_of_none n (chunkNext_zero inner)

/-! ## ChainAll (`advanced_iterator.rs`, `ChainAll::next`)

State: the currently-active inner iterator (`current`, `None` before the
first pull) and the remaining outer iterator (`all`).  The Rust `loop`
repeatedly bumps `current` from `all` whenever it is absent or exhausted;
each bump consumes one element of `all`, so the loop is structural recursion
on `all`. -/

structure ChainAll (α : Type u) where
  current : Option (List α)
  all : List (List α)
  deriving DecidableEq

/-- The `bump` loop of `ChainAll::next`: advance the outer iterator until an
inner iterator yields an element (skipping empty inner iterators), or the
outer iterator is exhausted. -/
def chainAllAdvance : List (List α) → Option (α × ChainAll α)
  | [] => none
  | current :: all =>
    match current with
    | x :: rest => some (x, ⟨some rest, all⟩)
    | [] => chainAllAdvance all

/-- Rust `ChainAll::next`: yield from the active inner iterator when it has an
element; otherwise set `bump` and loop (`chainAllAdvance`). -/
def chainAllNext (s : ChainAll α) : Option (α × ChainAll α) :=
  match s.current with
  | some (x :: rest) => some (x, ⟨some rest, s.all⟩)
  | some [] => chainAllAdvance s.all
  | none => chainAllAdvance s.all

/-- The elements still owed by the active inner iterator. -/
def currentList (s : ChainAll α) : List α := s.current.getD []

/-- The full sequence produced by `chain_all()` starting from the initial
state `{ current: None, all: outer }`.  The total number of inner elements
is an exact fuel bound. -/
def chainAllList (outer : List (List α)) : List α :=
  iterN chainAllNext (outer.map List.length).sum ⟨none, outer⟩

theorem chainAllAdvance_spec :
    ∀ all : List (List α),
      (all.flatten = [] ∧ chainAllAdvance all = none) ∨
      (∃ x cur rest, chainAllAdvance all = some (x, ⟨some cur, rest⟩) ∧
        all.flatten = x :: (cur ++ rest.flatten)) := by
  intro all
  induction all with
  | nil => exact Or.inl ⟨rfl, rfl⟩
  | cons c all ih =>
    cases c with
    | nil =>
      rcases ih with ⟨h1, h2⟩ | ⟨x, cur, rest, h1, h2⟩
      · exact Or.inl ⟨by simpa using h1, by simpa [chainAllAdvance] using h2⟩
      · exact Or.inr ⟨x, cur, rest, by simpa [chainAllAdvance] using h1, by simpa using h2⟩
    | cons x rest =>
      exact Or.inr ⟨x, rest, all, rfl, by simp⟩

/-- Running the ChainAll iterator for `fuel` steps produces the first `fuel`
elements of "active inner iterator, then the flattening of the rest". -/
theorem iterN_chainAllNext (fuel : Nat) :
    ∀ s : ChainAll α,
      iterN chainAllNext fuel s = (currentList s ++ s.all.flatten).take fuel := by
  induction fuel with
  | zero => intro s; rfl
  | succ n ih =>
    intro s
    obtain ⟨cur, all⟩ := s
    match cur with
    | some (x :: rest) =>
      rw [iterN_of_some n (show chainAllNext ⟨some (x :: rest), all⟩ =
        some (x, ⟨some rest, all⟩) from rfl)]
      rw [ih ⟨some rest, all⟩]
      simp [currentList]
    | some [] =>
      rcases chainAllAdvance_spec all with ⟨h1, h2⟩ | ⟨x, c, rest, h1, h2⟩
      · rw [iterN_of_none n (show chainAllNext ⟨some [], all⟩ = none from h2)]
        simp [currentList, h1]
      · rw [iterN_of_some n (show chainAllNext ⟨some [], all⟩ =
          some (x, ⟨some c, rest⟩) from h1)]
        rw [ih ⟨some c, rest⟩]
        simp [currentList, h2]
    | none =>
      rcases chainAllAdvance_spec all with ⟨h1, h2⟩ | ⟨x, c, rest, h1, h2⟩
      · rw [iterN_of_none n (show chainAllNext ⟨none, all⟩ = none from h2)]
        simp [currentList, h1]
      · rw [iterN_of_some n (show chainAllNext ⟨none, all⟩ =
          some (x, ⟨some c, rest⟩) from h1)]
        rw [ih ⟨some c, rest⟩]
        simp [currentList, h2]

theorem chainAllList_eq_flatten (outer : List (List α)) :
    chainAllList outer = outer.flatten := by
  rw [chainAllList, iterN_chainAllNext]
  simp [currentList, ← List.length_flatten]

/-- C5: `chain_all` flattens a sequence of sequences into their in-order
concatenation; on `[0..5, 5..10, 10..15]` it yields exactly `0..15`, and
empty inner sequences are skipped without emitting gaps (the loop moves past
consecutive empty inner iterators). -/
theorem chain_all_flattens_in_order :
    (∀ (α : Type u) (outer : List (List α)), chainAllList outer = outer.flatten) ∧
    chainAllList [List.range' 0 5, List.range' 5 5, List.range' 10 5] = List.range' 0 15 ∧
    chainAllList [[], [], [0], [], [], [1, 2], []] = [0, 1, 2] := by
  refine ⟨fun α outer => chainAllList_eq_flatten outer, by decide, by decide⟩

/-! ## Join (`advanced_iterator.rs`, `AdvancedIterator::join`)

For a string-element iterator: write the first element, then loop writing
`separator` followed by each remaining element. -/

def join (items : List String) (separator : String) : String :=
  match items with
  | [] => ""
  | first :: rest => rest.foldl (fun result item => result ++ separator ++ item) first

/-! ## Interleave (`advanced_iterator.rs`, `Interleave::next`)

State: the eagerly-collected vector of inner iterators plus the round-robin
cursor.  `next` pulls from the iterator under the cursor (absence when it is
exhausted) and advances the cursor by one modulo the vector length. -/

structure Interleave (α : Type u) where
  inner : List (List α)
  index : Nat
  deriving DecidableEq

/-- Rust `Interleave::next`: the result is the next element of `inner[index]`
(or absence when that iterator is exhausted); the cursor always advances by
one modulo `inner.len()`.  Returns (result, mutated state). -/
def interleaveNext (s : Interleave α) : Option α × Interleave α :=
  let slot := s.inner.getD s.index []
  let result :=
    match slot.head? with
    | some e => some e
    | none => none
  (result, ⟨s.inner.set s.index slot.tail, (s.index + 1) % s.inner.length⟩)

/-- Rust `AdvancedIterator::interleave`: collect the outer iterator into a vector
and assert it is non-empty.  The `assert!` panic on an empty collection is
modelled as `none`; on success the cursor starts at index `0`. -/
def interleave (outer : List (List α)) : Option (Interleave α) :=
  let inner := outer
  if inner.length > 0 then some ⟨inner, 0⟩ else none

/-- Results of `n` successive `next()` calls on an Interleave state, with
`none` recorded for each call whose slot was exhausted. -/
def interleaveRun : Nat → Interleave α → List (Option α)
  | 0, _ => []
  | n + 1, s =>
    match interleaveNext s with
    | (result, s') => result :: interleaveRun n s'

/-- C3: each `next` call on Interleave pulls one element from the inner
sequence at the cursor (absence exactly when that sequence is exhausted —
it does not skip ahead to a non-exhausted one), advances the cursor by one
modulo `N`, and the cursor starts at index `0` on construction.  The
concrete run on `[[1,2,3],[10]]` shows the gap: the fourth call returns
absence for the exhausted second sequence even though the first still holds
an element, which the fifth call then yields. -/
theorem interleave_round_robin :
    (∀ (α : Type u) (s : Interleave α) (h : s.index < s.inner.length),
      (interleaveNext s).1 = (s.inner.get ⟨s.index, h⟩).head? ∧
      (interleaveNext s).2.index = (s.index + 1) % s.inner.length ∧
      (interleaveNext s).2.inner = s.inner.set s.index (s.inner.get ⟨s.index, h⟩).tail) ∧
    (∀ (α : Type u) (outer : List (List α)), outer ≠ [] →
      interleave outer = some ⟨outer, 0⟩) ∧
    interleaveRun 5 ⟨[[1, 2, 3], [10]], 0⟩ = [some 1, some 10, some 2, none, some 3] := by
  refine ⟨?_, ?_, by decide⟩
  · intro α s h
    have hslot : s.inner.getD s.index [] = s.inner.get ⟨s.index, h⟩ := by
      simp [List.getD_eq_getElem?_getD, List.getElem?_eq_getElem h]
    refine ⟨?_, rfl, ?_⟩
    · simp only [interleaveNext, hslot]
      cases (s.inner.get ⟨s.index, h⟩).head? <;> rfl
    · simp only [interleaveNext, hslot]
  · intro α outer hne
    have : 0 < outer.length := List.length_pos.mpr hne
    simp [interleave, this]

theorem interleave_round_robin_witness :
    ((interleaveNext (Interleave.mk [[5], [7]] 1)).1 =
      (([[5], [7]] : List (List Nat)).get ⟨1, by decide⟩).head?) ∧
    interleave [[1]] = some (Interleave.mk [[1]] 0) :=
  ⟨(interleave_round_robin.1 Nat (Interleave.mk [[5], [7]] 1) (by decide)).1,
   interleave_round_robin.2.1 Nat [[1]] (by decide)⟩

/-! ## Dates (`date.rs`)

`chrono::Date<UTC>` is a calendar day in a fixed timezone; it is embedded as
its day number in the proleptic Gregorian calendar (an `Int` counting days
since 1970-01-01), which lets `succ()` be `+ 1` and the total order be the
integer order.
The civil-calendar conversions are the standard era-based Gregorian
algorithms; `ymd y m d` embeds `UTC.ymd(y, m, d)`. -/

/-- Day number of the Gregorian calendar date `y-m-d` (days since
1970-01-01, negative before that). -/
def daysFromCivil (y m d : Int) : Int :=
  let y' := if m ≤ 2 then y - 1 else y
  let era := Int.fdiv y' 400
  let yoe := y' - era * 400
  let mp := Int.emod (m + 9) 12
  let doy := Int.fdiv (153 * mp + 2) 5 + d - 1
  let doe := yoe * 365 + Int.fdiv yoe 4 - Int.fdiv yoe 100 + doy
  era * 146097 + doe - 719468

/-- Gregorian calendar date `(year, month, day)` of a day number. -/
def civilFromDays (z0 : Int) : Int × Int × Int :=
  let z := z0 + 719468
  let era := Int.fdiv z 146097
  let doe := z - era * 146097
  let yoe := Int.fdiv (doe - Int.fdiv doe 1460 + Int.fdiv doe 36524 - Int.fdiv doe 146096) 365
  let y := yoe + era * 400
  let doy := doe - (365 * yoe + Int.fdiv yoe 4 - Int.fdiv yoe 100)
  let mp := Int.fdiv (5 * doy + 2) 153
  let d := doy - Int.fdiv (153 * mp + 2) 5 + 1
  let m := mp + (if mp < 10 then 3 else -9)
  (if m ≤ 2 then y + 1 else y, m, d)

/-- Embeds `UTC.ymd(y, m, d)`. -/
def ymd (y m d : Int) : Int := daysFromCivil y m d

/-- Chrono `Datelike::month`: the month number (1–12) of a date. -/
def Date.month (date : Int) : Int := (civilFromDays date).2.1

/-- Chrono `Datelike::year`. -/
def Date.year (date : Int) : Int := (civilFromDays date).1

/-- Function `weekday` in date.rs: `date.weekday().num_days_from_monday()`
(Monday = 0, …, Sunday = 6).  1970-01-01 was a Thursday (= 3). -/
def weekday (date : Int) : Int := Int.emod (date + 3) 7

/-- Chrono `Datelike::isoweekdate().1`: the ISO 8601 week-of-year — the week
(starting Monday) containing this date's Thursday, numbered within that
Thursday's year, so week 1 is the week containing the year's first
Thursday. -/
def isoWeek (date : Int) : Int :=
  let thursday := date + 3 - weekday date
  let ord := thursday - daysFromCivil (Date.year thursday) 1 1 + 1
  Int.fdiv (ord - 1) 7 + 1

/-- Function `week_number` in date.rs: `date.isoweekdate().1 - 1` — the ISO
week-of-year, zero-based. -/
def week_number (date : Int) : Int := isoWeek date - 1

/-! ### DateRange (`date.rs`)

A half-open interval `[start, end)` of dates that is itself an iterator. -/

structure DateRange where
  start : Int
  «end» : Int
  deriving DecidableEq

/-- Rust `DateRange::new`: stores both bounds verbatim (also when
`start >= end`); never errors. -/
def DateRange.new (start «end» : Int) : DateRange := ⟨start, «end»⟩

/-- Rust `DateRange::empty`: `start >= end`. -/
def DateRange.empty (r : DateRange) : Bool := decide (r.start ≥ r.«end»)

/-- Rust `DateRange::next` (the `Iterator` impl): on a non-empty range yield
`start` and advance `start` to its successor; `None` once `start >= end`. -/
def DateRange.next (r : DateRange) : Option (Int × DateRange) :=
  if r.empty then none
  else some (r.start, ⟨r.start + 1, r.«end»⟩)

/-- The number of dates in the range — an exact fuel bound for iterating. -/
def DateRange.size (r : DateRange) : Nat := (r.«end» - r.start).toNat

/-- The full (finite) sequence of dates a DateRange iterates over. -/
def DateRange.toList (r : DateRange) : List Int :=
  iterN DateRange.next r.size r

/-! ### GroupBy (`date.rs`, `GroupBy::next`)

`GroupBy::next` scans a copy of the remaining range with
`skip_while(|d| key(d) == start_key).next()` to find the first date whose
key differs from the first date's key (falling back to `end`), emits
`[start, boundary)` and keeps `[boundary, end)`.  The scan walks the range
one date at a time, so the range size is its exact fuel. -/

/-- The `skip_while(...).next().unwrap_or(end)` scan: the first date in
`[cur, stop)` (walked with `fuel = (stop - cur).toNat` steps) whose key
differs from `startKey`, or `stop` when every date matches. -/
def scanBoundary {K : Type} [DecidableEq K] (key : Int → K) (startKey : K) :
    Nat → Int → Int → Int
  | 0, _, stop => stop
  | n + 1, cur, stop =>
    if key cur = startKey then scanBoundary key startKey n (cur + 1) stop else cur

/-- Rust `GroupBy::next`: on a non-empty remaining range emit the maximal run of
dates sharing the first date's key, and retain the rest. -/
def groupByNext {K : Type} [DecidableEq K] (key : Int → K) (g : DateRange) :
    Option (DateRange × DateRange) :=
  if g.empty then none
  else
    let start := g.start
    let startKey := key start
    let e := scanBoundary key startKey g.size g.start g.«end»
    some (DateRange.new start e, DateRange.new e g.«end»)

/-- The full sequence of groups produced by `group_by(key)`. -/
def groupByList {K : Type} [DecidableEq K] (key : Int → K) (g : DateRange) :
    List DateRange :=
  iterN (groupByNext key) g.size g

/-- Rust `DateRange::by_month`: `group_by(Date::month)`. -/
def DateRange.by_month (r : DateRange) : List DateRange :=
  groupByList Date.month r

/-- Rust `DateRange::by_week`: `group_by(week_number)`. -/
def DateRange.by_week (r : DateRange) : List DateRange :=
  groupByList week_number r

/-- Function `dates` in date.rs: all dates of the given year,
`DateRange::new(UTC.ymd(year, 1, 1), UTC.ymd(year + 1, 1, 1))`. -/
def dates (year : Int) : DateRange :=
  DateRange.new (ymd year 1 1) (ymd (year + 1) 1 1)

/-! ### Basic DateRange iteration lemmas -/

theorem DateRange.next_none {r : DateRange} (h : r.«end» ≤ r.start) :
    DateRange.next r = none := by
  have hge : r.start ≥ r.«end» := h
  simp [DateRange.next, DateRange.empty, hge]

theorem DateRange.next_some {r : DateRange} (h : r.start < r.«end») :
    DateRange.next r = some (r.start, ⟨r.start + 1, r.«end»⟩) := by
  have hge : ¬ (r.start ≥ r.«end») := not_le.mpr h
  simp [DateRange.next, DateRange.empty, hge]

/-- The function mapping an offset to the corresponding date of a range. -/
def dateAt (a : Int) (i : Nat) : Int := a + (i : Int)

theorem iterN_next_range :
    ∀ (n : Nat) (a b : Int), (b - a).toNat = n →
      iterN DateRange.next n ⟨a, b⟩ = (List.range n).map (dateAt a) := by
  intro n
  induction n with
  | zero => intro a b _; rfl
  | succ n ih =>
    intro a b hn
    have hab : a < b := by omega
    rw [iterN_of_some n (DateRange.next_some hab)]
    rw [ih (a + 1) b (by omega)]
    rw [List.range_succ_eq_map, List.map_cons, List.map_map]
    refine congrArg₂ List.cons (by simp [dateAt]) ?_
    refine List.map_congr_left ?_
    intro i _
    simp only [Function.comp_apply, dateAt, Nat.succ_eq_add_one]
    push_cast
    ring

theorem DateRange.toList_eq (r : DateRange) :
    r.toList = (List.range r.size).map (dateAt r.start) :=
  iterN_next_range r.size r.start r.«end» rfl

theorem DateRange.length_toList (r : DateRange) : r.toList.length = r.size := by
  simp [DateRange.toList_eq]

theorem DateRange.mem_toList (r : DateRange) (d : Int) :
    d ∈ r.toList ↔ r.start ≤ d ∧ d < r.«end» := by
  rw [DateRange.toList_eq]
  simp only [List.mem_map, List.mem_range, DateRange.size, dateAt]
  constructor
  · rintro ⟨i, hi, rfl⟩
    omega
  · rintro ⟨h1, h2⟩
    exact ⟨(d - r.start).toNat, by omega, by omega⟩

theorem DateRange.toList_eq_nil_iff (r : DateRange) :
    r.toList = [] ↔ r.«end» ≤ r.start := by
  rw [DateRange.toList_eq, List.map_eq_nil_iff, List.range_eq_nil, DateRange.size]
  omega

theorem DateRange.head?_toList {r : DateRange} (h : r.start < r.«end») :
    r.toList.head? = some r.start := by
  rw [DateRange.toList_eq]
  have hsz : r.size = (r.size - 1) + 1 := by simp only [DateRange.size]; omega
  rw [hsz, List.range_succ_eq_map]
  simp [dateAt]

theorem DateRange.getLast?_toList {r : DateRange} (h : r.start < r.«end») :
    r.toList.getLast? = some (r.«end» - 1) := by
  rw [DateRange.toList_eq, List.getLast?_eq_getElem?]
  have hsz : 0 < r.size := by simp only [DateRange.size]; omega
  rw [List.length_map, List.length_range, List.getElem?_map,
    List.getElem?_range (by omega : r.size - 1 < r.size)]
  have : dateAt r.start (r.size - 1) = r.«end» - 1 := by
    simp only [dateAt, DateRange.size]
    omega
  simp [this]

/-- Splitting a date range at an interior point splits its date sequence. -/
theorem DateRange.toList_append {a b c : Int} (hab : a ≤ b) (hbc : b ≤ c) :
    (DateRange.mk a c).toList = (DateRange.mk a b).toList ++ (DateRange.mk b c).toList := by
  rw [DateRange.toList_eq, DateRange.toList_eq, DateRange.toList_eq]
  have hab' : (DateRange.mk a b).size = ((b - a).toNat : Nat) := rfl
  have hsz : (DateRange.mk a c).size = (DateRange.mk a b).size + (DateRange.mk b c).size := by
    simp only [DateRange.size]
    omega
  rw [hsz, List.range_add, List.map_append, List.map_map]
  refine congrArg₂ List.append rfl ?_
  refine List.map_congr_left ?_
  intro i _
  simp only [Function.comp_apply, dateAt, hab']
  push_cast
  omega

/-- C6: `DateRange::new` stores both bounds verbatim and never errors; a
range is empty (iterates as the empty sequence) exactly when
`start >= end`, inverted ranges included; and `next()` on a non-empty range
yields the current `start` and advances `start` to its successor, returning
`None` once `start >= end`. -/
theorem date_range_new_and_next :
    (∀ s e : Int, DateRange.new s e = ⟨s, e⟩) ∧
    (∀ r : DateRange, r.toList = [] ↔ r.«end» ≤ r.start) ∧
    (∀ r : DateRange, r.«end» ≤ r.start → DateRange.next r = none) ∧
    (∀ r : DateRange, r.start < r.«end» →
      DateRange.next r = some (r.start, DateRange.new (r.start + 1) r.«end»)) :=
  ⟨fun _ _ => rfl, DateRange.toList_eq_nil_iff,
   fun _ h => DateRange.next_none h, fun _ h => DateRange.next_some h⟩

theorem date_range_new_and_next_witness :
    DateRange.next ⟨(5 : Int), (3 : Int)⟩ = none ∧
    DateRange.next ⟨(0 : Int), (3 : Int)⟩ = some ((0 : Int), DateRange.new 1 3) ∧
    ((DateRange.mk (7 : Int) (7 : Int)).toList = [] ↔ (7 : Int) ≤ 7) :=
  ⟨date_range_new_and_next.2.2.1 ⟨5, 3⟩ (by decide),
   date_range_new_and_next.2.2.2 ⟨0, 3⟩ (by decide),
   date_range_new_and_next.2.1 ⟨7, 7⟩⟩

/-! ### GroupBy lemmas -/

theorem scanBoundary_spec {K : Type} [DecidableEq K] (key : Int → K) (k0 : K) :
    ∀ (n : Nat) (cur stop : Int), (stop - cur).toNat = n → cur ≤ stop →
      cur ≤ scanBoundary key k0 n cur stop ∧
      scanBoundary key k0 n cur stop ≤ stop ∧
      (∀ d : Int, cur ≤ d → d < scanBoundary key k0 n cur stop → key d = k0) ∧
      (scanBoundary key k0 n cur stop < stop → key (scanBoundary key k0 n cur stop) ≠ k0) := by
  intro n
  induction n with
  | zero =>
    intro cur stop hn hle
    have hcs : cur = stop := by omega
    subst hcs
    exact ⟨le_refl _, le_refl _, fun d h1 h2 => by simp [scanBoundary] at h2; omega,
      fun h => by simp [scanBoundary] at h⟩
  | succ n ih =>
    intro cur stop hn hle
    have hcs : cur < stop := by omega
    by_cases hk : key cur = k0
    · have heq : scanBoundary key k0 (n + 1) cur stop = scanBoundary key k0 n (cur + 1) stop := by
        simp [scanBoundary, hk]
      obtain ⟨h1, h2, h3, h4⟩ := ih (cur + 1) stop (by omega) (by omega)
      rw [heq]
      refine ⟨by omega, h2, ?_, h4⟩
      intro d hd1 hd2
      rcases eq_or_lt_of_le hd1 with rfl | hd1'
      · exact hk
      · exact h3 d (by omega) hd2
    · have heq : scanBoundary key k0 (n + 1) cur stop = cur := by
        simp [scanBoundary, hk]
      rw [heq]
      exact ⟨le_refl _, by omega, fun d h1 h2 => by omega, fun _ => hk⟩

theorem groupByNext_none {K : Type} [DecidableEq K] (key : Int → K) {g : DateRange}
    (h : g.«end» ≤ g.start) : groupByNext key g = none := by
  have hge : g.start ≥ g.«end» := h
  simp [groupByNext, DateRange.empty, hge]

/-- On a non-empty remaining range, `GroupBy::next` emits a non-empty
initial run all of whose dates share the first date's key, retaining the
rest of the range. -/
theorem groupByNext_some {K : Type} [DecidableEq K] (key : Int → K) {g : DateRange}
    (h : g.start < g.«end») :
    ∃ e : Int,
      groupByNext key g = some (DateRange.new g.start e, DateRange.new e g.«end») ∧
      g.start < e ∧ e ≤ g.«end» ∧
      (∀ d : Int, g.start ≤ d → d < e → key d = key g.start) ∧
      (e < g.«end» → key e ≠ key g.start) := by
  have hge : ¬ (g.start ≥ g.«end») := not_le.mpr h
  obtain ⟨h1, h2, h3, h4⟩ :=
    scanBoundary_spec key (key g.start) g.size g.start g.«end» rfl (le_of_lt h)
  refine ⟨scanBoundary key (key g.start) g.size g.start g.«end», ?_, ?_, h2, h3, h4⟩
  · simp [groupByNext, DateRange.empty, hge]
  · rcases eq_or_lt_of_le h1 with he | he
    · exfalso
      exact h4 (by omega) (by rw [← he])
    · exact he

theorem groupByNext_decreases {K : Type} [DecidableEq K] (key : Int → K) :
    ∀ (g gr rest : DateRange), groupByNext key g = some (gr, rest) → rest.size < g.size := by
  intro g gr rest heq
  by_cases h : g.start < g.«end»
  · obtain ⟨e, heq', he1, he2, -, -⟩ := groupByNext_some key h
    rw [heq'] at heq
    obtain ⟨rfl, rfl⟩ : gr = DateRange.new g.start e ∧ rest = DateRange.new e g.«end» := by
      have := Option.some.inj heq
      exact ⟨(Prod.mk.injEq _ _ _ _ ▸ this).1.symm, (Prod.mk.injEq _ _ _ _ ▸ this).2.symm⟩
    simp only [DateRange.size, DateRange.new]
    omega
  · rw [groupByNext_none key (by omega)] at heq
    exact absurd heq (by simp)

theorem groupByList_of_empty {K : Type} [DecidableEq K] (key : Int → K) {g : DateRange}
    (h : g.«end» ≤ g.start) : groupByList key g = [] := by
  unfold groupByList
  have : g.size = 0 := by simp only [DateRange.size]; omega
  rw [this, iterN_zero]

/-- Unfolding equation for `groupByList` on a non-empty range. -/
theorem groupByList_cons {K : Type} [DecidableEq K] (key : Int → K) {g : DateRange}
    (h : g.start < g.«end») {gr rest : DateRange}
    (heq : groupByNext key g = some (gr, rest)) :
    groupByList key g = gr :: groupByList key rest := by
  unfold groupByList
  have hpos : 0 < g.size := by simp only [DateRange.size]; omega
  obtain ⟨n, hn⟩ : ∃ n, g.size = n + 1 := ⟨g.size - 1, by omega⟩
  rw [hn, iterN_of_some n heq]
  have hlt : rest.size < g.size := groupByNext_decreases key g gr rest heq
  rw [iterN_congr (groupByNext key) DateRange.size (groupByNext_decreases key)
    n rest.size rest (by omega) (le_refl _)]

theorem groupByList_ne_nil {K : Type} [DecidableEq K] (key : Int → K) {g : DateRange}
    (h : g.start < g.«end») : groupByList key g ≠ [] := by
  obtain ⟨e, heq, -, -, -, -⟩ := groupByNext_some key h
  rw [groupByList_cons key h heq]
  simp

/-- Structure of a productive `GroupBy::next` step, recovered from the bare
equation: the emitted group starts at the old start, ends where the retained
range starts, is non-empty, and stays within the old range. -/
theorem groupByNext_some_inv {K : Type} [DecidableEq K] (key : Int → K)
    {g gr rest : DateRange} (heq : groupByNext key g = some (gr, rest)) :
    gr.start = g.start ∧ gr.«end» = rest.start ∧ rest.«end» = g.«end» ∧
    g.start < gr.«end» ∧ gr.«end» ≤ g.«end» := by
  by_cases h : g.start < g.«end»
  · obtain ⟨e, heq', he1, he2, -, -⟩ := groupByNext_some key h
    rw [heq'] at heq
    have hp := Option.some.inj heq
    have h1 : gr = DateRange.new g.start e := ((Prod.mk.injEq _ _ _ _).mp hp).1.symm
    have h2 : rest = DateRange.new e g.«end» := ((Prod.mk.injEq _ _ _ _).mp hp).2.symm
    subst h1 h2
    exact ⟨rfl, rfl, rfl, he1, he2⟩
  · rw [groupByNext_none key (by omega)] at heq
    exact absurd heq (by simp)

theorem groupByList_flatten_aux {K : Type} [DecidableEq K] (key : Int → K) :
    ∀ (n : Nat) (g : DateRange), g.size ≤ n →
      ((groupByList key g).map DateRange.toList).flatten = g.toList := by
  intro n
  induction n with
  | zero =>
    intro g hsz
    have hle : g.«end» ≤ g.start := by simp only [DateRange.size] at hsz; omega
    simp [groupByList_of_empty key hle, (DateRange.toList_eq_nil_iff g).mpr hle]
  | succ n ih =>
    intro g hsz
    by_cases h : g.start < g.«end»
    · obtain ⟨e, heq, he1, he2, -, -⟩ := groupByNext_some key h
      rw [groupByList_cons key h heq, List.map_cons, List.flatten_cons]
      have hlt := groupByNext_decreases key g _ _ heq
      rw [ih (DateRange.new e g.«end») (by omega)]
      exact (DateRange.toList_append (le_of_lt he1) he2).symm
    · have hle : g.«end» ≤ g.start := by omega
      simp [groupByList_of_empty key hle, (DateRange.toList_eq_nil_iff g).mpr hle]

/-- Every emitted group is non-empty, lies inside the original range, and
all of its dates share its first date's key. -/
theorem groupByList_groups_aux {K : Type} [DecidableEq K] (key : Int → K) :
    ∀ (n : Nat) (g : DateRange), g.size ≤ n → ∀ gr ∈ groupByList key g,
      gr.start < gr.«end» ∧ g.start ≤ gr.start ∧ gr.«end» ≤ g.«end» ∧
      (∀ d ∈ gr.toList, key d = key gr.start) := by
  intro n
  induction n with
  | zero =>
    intro g hsz gr hmem
    have hle : g.«end» ≤ g.start := by simp only [DateRange.size] at hsz; omega
    rw [groupByList_of_empty key hle] at hmem
    exact absurd hmem (by simp)
  | succ n ih =>
    intro g hsz gr hmem
    by_cases h : g.start < g.«end»
    · obtain ⟨e, heq, he1, he2, hconst, -⟩ := groupByNext_some key h
      rw [groupByList_cons key h heq] at hmem
      have hlt := groupByNext_decreases key g _ _ heq
      rcases List.mem_cons.mp hmem with rfl | hmem'
      · refine ⟨he1, le_refl _, he2, ?_⟩
        intro d hd
        rw [(DateRange.mem_toList _ d)] at hd
        exact hconst d hd.1 hd.2
      · obtain ⟨h1, h2, h3, h4⟩ := ih (DateRange.new e g.«end») (by omega) gr hmem'
        exact ⟨h1, by simp only [DateRange.new] at h2; omega, h3, h4⟩
    · have hle : g.«end» ≤ g.start := by omega
      rw [groupByList_of_empty key hle] at hmem
      exact absurd hmem (by simp)

/-- The first emitted group starts at the original range's start. -/
theorem groupByList_head_start {K : Type} [DecidableEq K] (key : Int → K)
    (g first : DateRange) (gs : List DateRange)
    (heq : groupByList key g = first :: gs) : first.start = g.start := by
  by_cases h : g.start < g.«end»
  · obtain ⟨e, hnext, -, -, -, -⟩ := groupByNext_some key h
    rw [groupByList_cons key h hnext] at heq
    have := (List.cons.injEq _ _ _ _).mp heq
    rw [← this.1]
    rfl
  · rw [groupByList_of_empty key (by omega)] at heq
    exact absurd heq (by simp)

/-- The last emitted group ends at the original range's end. -/
theorem groupByList_last_end_aux {K : Type} [DecidableEq K] (key : Int → K) :
    ∀ (n : Nat) (g : DateRange), g.size ≤ n → ∀ (hne : groupByList key g ≠ []),
      ((groupByList key g).getLast hne).«end» = g.«end» := by
  intro n
  induction n with
  | zero =>
    intro g hsz hne
    have hle : g.«end» ≤ g.start := by simp only [DateRange.size] at hsz; omega
    exact absurd (groupByList_of_empty key hle) hne
  | succ n ih =>
    intro g hsz hne
    by_cases h : g.start < g.«end»
    · obtain ⟨e, heq, he1, he2, -, -⟩ := groupByNext_some key h
      have hlt := groupByNext_decreases key g _ _ heq
      have hcons := groupByList_cons key h heq
      by_cases hgs : groupByList key (DateRange.new e g.«end») = []
      · have hrest : g.«end» ≤ e := by
          by_contra hcon
          exact groupByList_ne_nil key (by simp only [DateRange.new]; omega) hgs
        have hee : e = g.«end» := by omega
        subst hee
        simp only [hcons, hgs, List.getLast_singleton]
        rfl
      · have hgl : ((groupByList key g).getLast hne) =
            ((groupByList key (DateRange.new e g.«end»)).getLast hgs) := by
          rw [List.getLast_congr _ _ hcons]
          exact List.getLast_cons hgs
        rw [hgl, ih (DateRange.new e g.«end») (by omega) hgs]
        rfl
    · exact absurd (groupByList_of_empty key (by omega)) hne

/-- Consecutive emitted groups are contiguous: each starts where the
previous one ended. -/
theorem groupByList_chain_aux {K : Type} [DecidableEq K] (key : Int → K) :
    ∀ (n : Nat) (g : DateRange), g.size ≤ n →
      ∀ (i : Nat) (hi : i + 1 < (groupByList key g).length),
        ((groupByList key g).get ⟨i + 1, hi⟩).start =
        ((groupByList key g).get ⟨i, Nat.lt_of_succ_lt hi⟩).«end» := by
  intro n
  induction n with
  | zero =>
    intro g hsz i hi
    have hle : g.«end» ≤ g.start := by simp only [DateRange.size] at hsz; omega
    rw [groupByList_of_empty key hle] at hi
    exact absurd hi (by simp)
  | succ n ih =>
    intro g hsz i hi
    by_cases h : g.start < g.«end»
    · obtain ⟨e, heq, he1, he2, -, -⟩ := groupByNext_some key h
      have hlt := groupByNext_decreases key g _ _ heq
      have hcons := groupByList_cons key h heq
      rcases i with - | i
      · -- the second group is the head of the groups of the retained range
        have hlen : 0 < (groupByList key (DateRange.new e g.«end»)).length := by
          rw [hcons] at hi
          simp only [List.length_cons] at hi
          omega
        cases hgs : groupByList key (DateRange.new e g.«end») with
        | nil => rw [hgs] at hlen; exact absurd hlen (by simp)
        | cons first tl =>
          have hfirst : first.start = e :=
            groupByList_head_start key (DateRange.new e g.«end») first tl hgs
          have : groupByList key g = DateRange.new g.start e :: first :: tl := by
            rw [hcons, hgs]
          simp only [List.get_eq_getElem, this, List.getElem_cons_succ,
            List.getElem_cons_zero, hfirst]
          rfl
      · have hi' : i + 1 < (groupByList key (DateRange.new e g.«end»)).length := by
          rw [hcons] at hi
          simp only [List.length_cons] at hi
          omega
        have := ih (DateRange.new e g.«end») (by omega) i hi'
        simp only [List.get_eq_getElem, hcons, List.getElem_cons_succ]
        simpa [List.get_eq_getElem] using this
    · rw [groupByList_of_empty key (by omega)] at hi
      exact absurd hi (by simp)

/-- At most one group per date: the group sequence is finite. -/
theorem groupByList_length_le {K : Type} [DecidableEq K] (key : Int → K) :
    ∀ (n : Nat) (g : DateRange), g.size ≤ n →
      (groupByList key g).length ≤ g.size := by
  intro n
  induction n with
  | zero =>
    intro g hsz
    have hle : g.«end» ≤ g.start := by simp only [DateRange.size] at hsz; omega
    rw [groupByList_of_empty key hle]
    simp
  | succ n ih =>
    intro g hsz
    by_cases h : g.start < g.«end»
    · obtain ⟨e, heq, -, -, -, -⟩ := groupByNext_some key h
      have hlt := groupByNext_decreases key g _ _ heq
      rw [groupByList_cons key h heq, List.length_cons]
      have := ih (DateRange.new e g.«end») (by omega)
      omega
    · rw [groupByList_of_empty key (by omega)]
      simp

/-! ### The grouping claims -/

/-- C2: `by_month()` partitions a DateRange into non-empty, non-overlapping,
contiguous sub-ranges: their concatenation as date sequences is exactly the
original range's date sequence, every sub-range lies inside the original,
all dates within one sub-range share one month number, the first sub-range
starts at the original start, the last ends at the original end, and each
sub-range starts where the previous one ended. -/
theorem by_month_partitions (r : DateRange) :
    ((r.by_month.map DateRange.toList).flatten = r.toList) ∧
    (∀ gr ∈ r.by_month, gr.start < gr.«end» ∧ r.start ≤ gr.start ∧ gr.«end» ≤ r.«end» ∧
      ∀ d ∈ gr.toList, Date.month d = Date.month gr.start) ∧
    (∀ (first : DateRange) (gs : List DateRange), r.by_month = first :: gs →
      first.start = r.start) ∧
    (∀ hne : r.by_month ≠ [], (r.by_month.getLast hne).«end» = r.«end») ∧
    (∀ (i : Nat) (hi : i + 1 < r.by_month.length),
      (r.by_month.get ⟨i + 1, hi⟩).start =
      (r.by_month.get ⟨i, Nat.lt_of_succ_lt hi⟩).«end») :=
  ⟨groupByList_flatten_aux Date.month r.size r (le_refl _),
   fun gr hmem => groupByList_groups_aux Date.month r.size r (le_refl _) gr hmem,
   fun first gs heq => groupByList_head_start Date.month r first gs heq,
   fun hne => groupByList_last_end_aux Date.month r.size r (le_refl _) hne,
   fun i hi => groupByList_chain_aux Date.month r.size r (le_refl _) i hi⟩

theorem by_month_partitions_witness :
    Date.month (ymd 2015 1 15) =
      Date.month (DateRange.mk (ymd 2015 1 10) (ymd 2015 2 1)).start :=
  ((by_month_partitions (DateRange.mk (ymd 2015 1 10) (ymd 2015 3 10))).2.1
    (DateRange.mk (ymd 2015 1 10) (ymd 2015 2 1)) (by decide)).2.2.2
    (ymd 2015 1 15) (by decide)

/-- C10: every range emitted by the group-by iterator is non-empty, and each
emission strictly advances the remaining range's start and strictly shrinks
its size; hence grouping a finite range terminates: unfolding
`GroupBy::next` with any fuel at least the range's size yields the same
finite group sequence, of length at most the number of dates.  In
particular all `by_month` and `by_week` groups are non-empty. -/
theorem group_by_nonempty_and_terminating :
    (∀ (K : Type) [DecidableEq K] (key : Int → K) (g gr rest : DateRange),
      groupByNext key g = some (gr, rest) →
      gr.start < gr.«end» ∧ g.start < rest.start ∧ rest.«end» = g.«end» ∧
      rest.size < g.size) ∧
    (∀ (K : Type) [DecidableEq K] (key : Int → K) (g : DateRange) (n : Nat),
      g.size ≤ n → iterN (groupByNext key) n g = groupByList key g) ∧
    (∀ (K : Type) [DecidableEq K] (key : Int → K) (g : DateRange),
      (groupByList key g).length ≤ g.size) ∧
    (∀ r : DateRange, ∀ gr ∈ r.by_month, gr.start < gr.«end») ∧
    (∀ r : DateRange, ∀ gr ∈ r.by_week, gr.start < gr.«end») := by
  refine ⟨?_, ?_, ?_, ?_, ?_⟩
  · intro K instK key g gr rest heq
    obtain ⟨h1, h2, h3, h4, h5⟩ := groupByNext_some_inv key heq
    have hdec := groupByNext_decreases key g gr rest heq
    exact ⟨by omega, by omega, h3, hdec⟩
  · intro K instK key g n hn
    exact iterN_congr (groupByNext key) DateRange.size (groupByNext_decreases key)
      n g.size g hn (le_refl _)
  · intro K instK key g
    exact groupByList_length_le key g.size g (le_refl _)
  · intro r gr hmem
    exact (groupByList_groups_aux Date.month r.size r (le_refl _) gr hmem).1
  · intro r gr hmem
    exact (groupByList_groups_aux week_number r.size r (le_refl _) gr hmem).1

theorem group_by_nonempty_and_terminating_witness :
    (DateRange.mk (ymd 2015 1 10) (ymd 2015 2 1)).start <
      (DateRange.mk (ymd 2015 1 10) (ymd 2015 2 1)).«end» ∧
    (DateRange.mk (ymd 2015 1 10) (ymd 2015 3 10)).start <
      (DateRange.mk (ymd 2015 2 1) (ymd 2015 3 10)).start ∧
    (DateRange.mk (ymd 2015 2 1) (ymd 2015 3 10)).«end» =
      (DateRange.mk (ymd 2015 1 10) (ymd 2015 3 10)).«end» ∧
    (DateRange.mk (ymd 2015 2 1) (ymd 2015 3 10)).size <
      (DateRange.mk (ymd 2015 1 10) (ymd 2015 3 10)).size :=
  group_by_nonempty_and_terminating.1 Int Date.month
    (DateRange.mk (ymd 2015 1 10) (ymd 2015 3 10))
    (DateRange.mk (ymd 2015 1 10) (ymd 2015 2 1))
    (DateRange.mk (ymd 2015 2 1) (ymd 2015 3 10)) (by decide)

/-- C7: `by_week()` groups by the key "ISO week-of-year minus one"
(zero-based, Monday-start weeks), so consecutive dates in different months
but the same ISO week land in one group; on `[2015-01-01, 2015-01-17)` it
yields exactly the three groups `[01-01, 01-05)`, `[01-05, 01-12)` and
`[01-12, 01-17)`.  The `[2015-01-30, 2015-02-02)` run shows one group
spanning a month boundary inside one ISO week. -/
theorem by_week_iso_week_grouping :
    (∀ r : DateRange, r.by_week = groupByList week_number r) ∧
    (∀ d : Int, week_number d = isoWeek d - 1) ∧
    (DateRange.mk (ymd 2015 1 1) (ymd 2015 1 17)).by_week =
      [DateRange.mk (ymd 2015 1 1) (ymd 2015 1 5),
       DateRange.mk (ymd 2015 1 5) (ymd 2015 1 12),
       DateRange.mk (ymd 2015 1 12) (ymd 2015 1 17)] ∧
    (DateRange.mk (ymd 2015 1 30) (ymd 2015 2 2)).by_week =
      [DateRange.mk (ymd 2015 1 30) (ymd 2015 2 2)] ∧
    Date.month (ymd 2015 1 30) ≠ Date.month (ymd 2015 2 1) :=
  ⟨fun _ => rfl, fun _ => rfl, by decide, by decide, by decide⟩

/-- C8: `dates(y)` is the half-open range from January 1 of year `y` to
January 1 of year `y + 1` (proleptic Gregorian); `dates(2015)` yields
exactly 365 dates, the first `2015-01-01` and the last `2015-12-31`, and
`dates(2016)` (a leap year) yields 366. -/
theorem dates_year_range :
    (∀ y : Int, dates y = DateRange.new (ymd y 1 1) (ymd (y + 1) 1 1)) ∧
    (dates 2015).toList.length = 365 ∧
    (dates 2015).toList.head? = some (ymd 2015 1 1) ∧
    (dates 2015).toList.getLast? = some (ymd 2015 12 31) ∧
    (dates 2016).toList.length = 366 := by
  refine ⟨fun y => rfl, ?_, ?_, ?_, ?_⟩
  · rw [DateRange.length_toList]
    decide
  · rw [DateRange.head?_toList (by decide)]
    rfl
  · rw [DateRange.getLast?_toList (by decide)]
    decide
  · rw [DateRange.length_toList]
    decide

theorem chunkList_bounded_aux {size : Nat} (hs : 0 < size) :
    ∀ (n : Nat) (l : List α), l.length ≤ n → ∀ c ∈ chunkList size l,
      c ≠ [] ∧ c.length ≤ size := by
  intro n
  induction n with
  | zero =>
    intro l h c hmem
    have : l = [] := List.eq_nil_of_length_eq_zero (Nat.le_zero.mp h)
    subst this
    exact absurd hmem (by simp [chunkList_nil])
  | succ n ih =>
    intro l h c hmem
    cases l with
    | nil => exact absurd hmem (by simp [chunkList_nil])
    | cons x xs =>
      rw [chunkList_cons hs (by simp)] at hmem
      rcases List.mem_cons.mp hmem with rfl | hmem'
      · refine ⟨?_, by simp [List.length_take]⟩
        cases size with
        | zero => omega
        | succ k => simp
      · exact ih ((x :: xs).drop size)
          (by rw [List.length_drop]; simp only [List.length_cons] at h ⊢; omega) c hmem'

/-- C4: the core's only explicit failure is Interleave's precondition that
its collected outer sequence be non-empty (the `assert!`, modelled as
`none`, fires exactly on the empty collection); every other operation is
total on degenerate-but-valid inputs: chunking with a non-dividing size
just yields bounded, non-empty chunks with a shorter final one, empty or
inverted date ranges iterate as empty sequences and group into zero
groups, `join` of nothing is the empty string, and `chain_all` of nothing
is the empty sequence. -/
theorem interleave_only_failure :
    (∀ (α : Type u) (outer : List (List α)), interleave outer = none ↔ outer = []) ∧
    (∀ (α : Type u) (size : Nat) (l : List α), 0 < size →
      ∀ c ∈ chunkList size l, c ≠ [] ∧ c.length ≤ size) ∧
    chunkList 2 [1, 2, 3] = [[1, 2], [3]] ∧
    (∀ r : DateRange, r.«end» ≤ r.start → r.toList = []) ∧
    (∀ r : DateRange, r.«end» ≤ r.start → r.by_month = [] ∧ r.by_week = []) ∧
    join [] "," = "" ∧
    (∀ (α : Type u), chainAllList ([] : List (List α)) = []) := by
  refine ⟨?_, ?_, by decide, ?_, ?_, rfl, fun α => rfl⟩
  · intro α outer
    constructor
    · intro hnone
      by_contra hne
      have hpos := List.length_pos.mpr hne
      simp [interleave, hpos] at hnone
    · rintro rfl
      rfl
  · intro α size l hs c hmem
    exact chunkList_bounded_aux hs l.length l (le_refl _) c hmem
  · intro r h
    exact (DateRange.toList_eq_nil_iff r).mpr h
  · intro r h
    exact ⟨groupByList_of_empty Date.month h, groupByList_of_empty week_number h⟩

theorem interleave_only_failure_witness :
    ((interleave ([] : List (List Nat)) = none) ↔ ([] : List (List Nat)) = []) ∧
    (([3] : List Nat) ≠ [] ∧ ([3] : List Nat).length ≤ 2) ∧
    (DateRange.mk (3 : Int) (1 : Int)).toList = [] ∧
    ((DateRange.mk (3 : Int) (1 : Int)).by_month = [] ∧
     (DateRange.mk (3 : Int) (1 : Int)).by_week = []) :=
  ⟨interleave_only_failure.{0}.1 Nat [],
   interleave_only_failure.{0}.2.1 Nat 2 [1, 2, 3] (by decide) [3] (by decide),
   interleave_only_failure.{0}.2.2.2.1 ⟨3, 1⟩ (by decide),
   interleave_only_failure.{0}.2.2.2.2.1 ⟨3, 1⟩ (by decide)⟩

theorem chain_all_flattens_in_order_witness :
    chainAllList [[1], [2, 3]] = ([[1], [2, 3]] : List (List Nat)).flatten :=
  chain_all_flattens_in_order.{0}.1 Nat [[1], [2, 3]]

theorem by_week_iso_week_grouping_witness :
    week_number (ymd 2015 1 1) = isoWeek (ymd 2015 1 1) - 1 :=
  by_week_iso_week_grouping.2.1 (ymd 2015 1 1)

theorem dates_year_range_witness :
    dates 2015 = DateRange.new (ymd 2015 1 1) (ymd (2015 + 1) 1 1) :=
  dates_year_range.1 2015

theorem chunk_zero_is_empty_sequence_witness :
    chunkNext 0 [1, 2, 3] = none ∧ chunkList 0 [1, 2, 3] = [] :=
  chunk_zero_is_empty_sequence [1, 2, 3]

/-! ### The repository's own unit tests, replayed against the embedding -/

example : week_number (ymd 2015 1 1) = 0 := by decide

example : week_number (ymd 2015 1 4) = 0 := by decide

example : week_number (ymd 2015 1 5) = 1 := by decide

example : week_number (ymd 2015 1 13) = 2 := by decide

example :
    (DateRange.mk (ymd 2015 1 1) (ymd 2015 1 4)).toList =
      [ymd 2015 1 1, ymd 2015 1 2, ymd 2015 1 3] := by decide

example :
    (DateRange.mk (ymd 2015 1 10) (ymd 2015 3 10)).by_month =
      [DateRange.mk (ymd 2015 1 10) (ymd 2015 2 1),
       DateRange.mk (ymd 2015 2 1) (ymd 2015 3 1),
       DateRange.mk (ymd 2015 3 1) (ymd 2015 3 10)] := by decide

example :
    chunkList 2 ["foo", "bar", "baz", "qux", "quux"] =
      [["foo", "bar"], ["baz", "qux"], ["quux"]] := by decide

example :
    chainAllList [List.range' 0 5, List.range' 5 5, List.range' 10 5] =
      [0, 1, 2, 3, 4, 5, 6, 7, 8, 9, 10, 11, 12, 13, 14] := by decide

example : join ["foo", "bar", "baz"] "" = "foobarbaz" := by decide

example : join ["foo", "bar", "baz"] "," = "foo,bar,baz" := by decide

example :
    interleaveRun 9 ⟨[List.range' 0 3, List.range' 4 3, List.range' 7 4], 0⟩ =
      [some 0, some 4, some 7, some 1, some 5, some 8, some 2, some 6, some 9] := by
  decide

end Calendar
